import Mathlib

/-!
Verification development for the incremental transcript pipeline of the
DICHAI live-captioning and translation tool.  The buffers and stage
operations of `src/App.tsx` and `src/hooks/useSpeechRecognition.ts` are
shallowly embedded below: buffers are lists of characters, the remote
language-model capability is an opaque parameter (its response text is an
argument of each stage operation), and the event-driven stages become a
step function on an explicit pipeline state.
-/

set_option maxRecDepth 8192
set_option linter.unusedVariables false

namespace DichAI

/-- Characters treated as whitespace by the JavaScript trim operations,
restricted to the ASCII whitespace characters that can occur in this
pipeline's buffers. -/
def isWs (c : Char) : Bool := c = ' ' || c = '\t' || c = '\n' || c = '\r'

/-- Sentence-terminating punctuation: the character class `[.!?]` used by
the segmentation regular expression and the break decision in
`useSpeechRecognition.ts`, and by the silence-commit test. -/
def isTerm (c : Char) : Bool := c = '.' || c = '!' || c = '?'

/-- Buffers are modelled as lists of characters. -/
abbrev Str := List Char

/-- JavaScript `String.prototype.trimEnd`. -/
def trimEnd (l : Str) : Str := (l.reverse.dropWhile isWs).reverse

/-- JavaScript `String.prototype.trimStart`. -/
def trimStart (l : Str) : Str := l.dropWhile isWs

/-- JavaScript `String.prototype.trim`. -/
def trim (l : Str) : Str := trimStart (trimEnd l)

/-- Number of trailing whitespace characters of a buffer. -/
def trailingWs (l : Str) : Nat := (l.reverse.takeWhile isWs).length

/-- The run of trailing whitespace characters of a buffer, so that
`trimEnd l ++ wsTail l = l`. -/
def wsTail (l : Str) : Str := (l.reverse.takeWhile isWs).reverse

/-- JavaScript `s.slice(a, b)` for nonnegative indices (out-of-range and
crossed indices give the same clamped behaviour as in JavaScript). -/
def jsSlice (l : Str) (a b : Nat) : Str := (l.take b).drop a

/-- JavaScript `s.endsWith(t)`. -/
def jsEndsWith (l t : Str) : Bool := decide (l.reverse.take t.length = t.reverse)

/-- Test on the last character of a buffer, as in a JavaScript regular
expression of the form `/[...]$/` (false on the empty buffer). -/
def lastCharIs (p : Char → Bool) (l : Str) : Bool :=
  match l.reverse with
  | [] => false
  | c :: _ => p c

/-- Last line of a buffer: the last entry of JavaScript
`text.split('\n')`, i.e. the text after the final newline. -/
def lastLineOf (l : Str) : Str := (l.reverse.takeWhile (fun c => c ≠ '\n')).reverse

/-- Whether a buffer is empty or starts with a non-whitespace character.
An auxiliary predicate used by the invariant proofs (every buffer the
ingest stage produces satisfies it). -/
def headOk : Str → Prop
  | [] => True
  | c :: _ => isWs c = false

/-- The helper `capitalize` of useSpeechRecognition.ts (line 51):
`s.charAt(0).toUpperCase() + s.slice(1)`, with the ASCII case mapping. -/
def capitalize : Str → Str
  | [] => []
  | c :: cs => c.toUpper :: cs

/-- Scanner equivalent to the global sentence regular expression
`/([^.!?]+[.!?]\s*|[^.!?]+$)/g` of useSpeechRecognition.ts (line 104).
`cur` is the match built so far; `inWs` records whether the scanner is in
the greedy trailing-whitespace part after a terminator.  A terminator at
a fresh match position matches neither alternative and is skipped, as the
regular-expression engine does. -/
def scanSentences (cur : Str) (inWs : Bool) : Str → List Str
  | [] => if inWs then [cur] else if cur = [] then [] else [cur]
  | x :: xs =>
    if inWs then
      if isWs x then scanSentences (cur ++ [x]) true xs
      else if isTerm x then cur :: scanSentences [] false xs
      else cur :: scanSentences [x] false xs
    else
      if isTerm x then
        if cur = [] then scanSentences [] false xs
        else scanSentences (cur ++ [x]) true xs
      else scanSentences (cur ++ [x]) false xs

/-- List of matches of the sentence regular expression against a chunk. -/
def sentenceMatches (chunk : Str) : List Str := scanSentences [] false chunk

/-- The `chunk.match(sentenceRegex) || [chunk]` fallback of line 105. -/
def matchesOf (chunk : Str) : List Str :=
  if sentenceMatches chunk = [] then [chunk] else sentenceMatches chunk

/-- Configuration constant of useSpeechRecognition.ts (line 29). -/
def MAX_READABLE_LINE_LENGTH : Nat := 160

/-- Configuration constant of useSpeechRecognition.ts (line 30). -/
def SOFT_BREAK_THRESHOLD : Nat := 80

/-- The intelligent break decision of recognition.onresult
(useSpeechRecognition.ts lines 114-132): inspect the last line of the
accumulated text and choose the separator to prepend before the next
unit (empty separator for an empty buffer, a newline on a soft or hard
break, otherwise a single space). -/
def separatorFor (newText : Str) : Str :=
  let lastLine := lastLineOf newText
  let endsInPunctuation := lastCharIs isTerm lastLine
  let shouldBreak :=
    (endsInPunctuation && decide (lastLine.length > SOFT_BREAK_THRESHOLD)) ||
      decide (lastLine.length > MAX_READABLE_LINE_LENGTH)
  if newText = [] then []
  else if shouldBreak then ['\n']
  else if endsInPunctuation then [' '] else [' ']

/-- Body of the `matches.forEach` loop of recognition.onresult
(useSpeechRecognition.ts lines 109-135): trim and capitalize one unit,
decide the separator from the last line of the accumulated text, and
append. -/
def appendUnit (newText : Str) (s : Str) : Str :=
  let sentence := capitalize (trim s)
  if sentence = [] then newText
  else newText ++ separatorFor newText ++ sentence

/-- The `setText` update of recognition.onresult for a finalized chunk
(useSpeechRecognition.ts lines 98-138): trim the incoming chunk, split it
into sentence-like units, and fold the units onto `prev.trimEnd()`. -/
def commitFinalChunk (prev finalChunk : Str) : Str :=
  let chunk := trim finalChunk
  if chunk = [] then prev
  else (matchesOf chunk).foldl appendUnit (trimEnd prev)

/-- The silence-commit `setText` update (useSpeechRecognition.ts lines
63-72), fired after 1200 ms without interim text while recording. -/
def silenceCommit (prev : Str) : Str :=
  if decide ((trimEnd prev).length > 0) &&
      !(lastCharIs (fun c => isTerm c || c = '\n') (trimEnd prev)) then
    trimEnd prev ++ ['.', '\n', '\n']
  else if decide ((trimEnd prev).length > 0) && !(jsEndsWith (trimEnd prev) ['\n', '\n']) then
    trimEnd prev ++ ['\n', '\n']
  else prev

/-- Events consumed by the ingest stage in the scenarios of the spec:
a finalized recognition chunk, or the firing of the silence timer. -/
inductive IngestEvent where
  | finalChunk (chunk : Str)
  | silenceTimeout
deriving DecidableEq, Repr

/-- One ingest-stage step on the source buffer. -/
def ingestStep (buf : Str) : IngestEvent → Str
  | .finalChunk c => commitFinalChunk buf c
  | .silenceTimeout => silenceCommit buf

/-- Source buffer obtained by running a sequence of ingest events from an
empty buffer. -/
def runIngest (evs : List IngestEvent) : Str := evs.foldl ingestStep []

/-- Success continuation of refineEnglishTranscript (App.tsx lines
237-245): given the buffer present when the response arrives and the
refined watermark captured at call time, splice in the trimmed response
text and advance the watermark to the new total length. -/
def applyRefinement (prevText : Str) (r0 : Nat) (resText : Str) : Str × Nat :=
  let refined := trim resText
  let head := prevText.take r0
  let separator : Str := if jsEndsWith head ['\n'] || decide (head = []) then [] else [' ']
  let newFullText := head ++ separator ++ refined
  (newFullText, newFullText.length)

/-- State of the pipeline of App.tsx: the source buffer (`text`), the
refined watermark (`refinedRef`), the translated watermark
(`processedRef`) and the translated buffer (`translatedText`). -/
structure PipelineState where
  text : Str
  refinedRef : Nat
  processedRef : Nat
  translatedText : Str
deriving DecidableEq, Repr

/-- The velocity-adaptive minimum chunk-size gate of
refineEnglishTranscript (App.tsx line 220):
`velocityRef.current > 30 ? 120 : 40`. -/
def minThreshold (velocity : Int) : Nat := if velocity > 30 then 120 else 40

/-- One sequential round of refineEnglishTranscript (App.tsx lines
214-253).  `velocity` is the current sample of the velocity tracker;
`resText` is the remote correction capability's response text, `none`
standing for a failed call (caught and logged, state unchanged).  A round
below the minimum chunk-size gate, or with a falsy response, leaves the
state unchanged. -/
def refineEnglishTranscript (s : PipelineState) (velocity : Int) (resText : Option Str) :
    PipelineState :=
  let raw := s.text
  let unrefinedChunk := trim (raw.drop s.refinedRef)
  if unrefinedChunk.length < minThreshold velocity then s
  else
    match resText with
    | none => s
    | some rt =>
      if rt = [] then s
      else
        let spliced := applyRefinement raw s.refinedRef rt
        { s with text := spliced.1, refinedRef := spliced.2 }

/-- The slice `sourceText.slice(processedRef.current, isBatchRequest ?
sourceText.length : refinedRef.current)` consumed by performTranslation
(App.tsx line 267). -/
def translationChunk (s : PipelineState) (isBatchRequest : Bool) : Str :=
  jsSlice s.text s.processedRef (if isBatchRequest then s.text.length else s.refinedRef)

/-- The `endIdx` to which performTranslation advances the translated
watermark on success (App.tsx line 274). -/
def translationEnd (s : PipelineState) (isBatchRequest : Bool) : Nat :=
  if isBatchRequest then s.text.length else s.refinedRef

/-- The batch separator inserted by performTranslation (App.tsx line 298). -/
def batchMarker : Str := "\n\n--- BATCH PROCESSED ---\n".data

/-- The core of the batch separator marker. -/
def batchMarkerCore : Str := "--- BATCH PROCESSED ---".data

/-- The `setTranslatedText` update of performTranslation (App.tsx lines
295-304): trim the end of the previous buffer, choose the separator, and
append the new output. -/
def appendTranslated (prev val : Str) (isBatchRequest : Bool) : Str :=
  let p := trimEnd prev
  if isBatchRequest then
    let sep := if decide (p.length > 0) && !(jsEndsWith p ['\n']) then batchMarker else []
    p ++ sep ++ val
  else
    let sep := if decide (p.length > 0) && !(jsEndsWith p ['\n']) then ['\n'] else []
    p ++ sep ++ val

/-- One sequential round of performTranslation (App.tsx lines 255-315).
`resText` is the remote translation capability's response text, `none`
standing for a failed call (caught: error flag set, watermark unchanged).
The boolean result records whether a remote call was made.  A degenerate
(empty or whitespace-only) slice returns before calling; a falsy or
whitespace-only response appends nothing and does not advance. -/
def performTranslation (s : PipelineState) (isBatchRequest : Bool) (resText : Option Str) :
    PipelineState × Bool :=
  let chunk := translationChunk s isBatchRequest
  if (trim chunk).length = 0 then (s, false)
  else
    let endIdx := translationEnd s isBatchRequest
    match resText with
    | none => (s, true)
    | some rt =>
      if rt = [] then (s, true)
      else
        let val := trim rt
        if val = [] then (s, true)
        else
          ({ s with
              translatedText := appendTranslated s.translatedText val isBatchRequest,
              processedRef := endIdx }, true)

/-- The stage operations acting on the pipeline state: an ingest commit,
a silence commit, the explicit clear (Controls onClear, App.tsx line 541:
clearTranscript plus reset of both watermarks), a refinement round and a
translation round. -/
inductive StageOp where
  | ingest (finalChunk : Str)
  | silence
  | clear
  | refine (velocity : Int) (resText : Option Str)
  | translate (isBatchRequest : Bool) (resText : Option Str)
deriving DecidableEq, Repr

/-- Interpretation of one stage operation. -/
def stageStep (s : PipelineState) : StageOp → PipelineState
  | .ingest c => { s with text := commitFinalChunk s.text c }
  | .silence => { s with text := silenceCommit s.text }
  | .clear => { text := [], refinedRef := 0, processedRef := 0, translatedText := s.translatedText }
  | .refine v rt => refineEnglishTranscript s v rt
  | .translate b rt => (performTranslation s b rt).1

/-- Whether a stage operation is a batch-mode translation round. -/
def StageOp.isBatchTranslate : StageOp → Bool
  | .translate true _ => true
  | _ => false

/-- Initial pipeline state of a fresh session. -/
def initState : PipelineState := ⟨[], 0, 0, []⟩

/-- State reached by a sequence of stage operations from a fresh session. -/
def runOps (ops : List StageOp) : PipelineState := ops.foldl stageStep initState

/-- Shape of the JavaScript error value inspected by retryWithBackoff
(App.tsx line 33): an optional numeric `status` and an optional message. -/
structure JsError where
  status : Option Nat
  message : Option Str
deriving DecidableEq, Repr

/-- JavaScript `s.includes(t)`: `t` occurs contiguously in `s`. -/
def jsIncludes (l t : Str) : Bool := decide (t <:+: l)

/-- The rate-limit test `error?.status === 429 ||
error?.message?.includes('429')` of App.tsx line 33. -/
def isQuotaError (e : JsError) : Bool :=
  e.status = some 429 ||
    (match e.message with
     | some m => jsIncludes m "429".data
     | none => false)

/-- Result of one attempt of the wrapped asynchronous function. -/
inductive AttemptResult (T : Type) where
  | ok (v : T)
  | err (e : JsError)
deriving DecidableEq

/-- The retry wrapper retryWithBackoff of App.tsx lines 31-40.
`attempts i` is the outcome of the i-th invocation of `fn`; the second
component of the result collects the delays slept before each retry. -/
def retryWithBackoff {T : Type} (attempts : Nat → AttemptResult T) :
    Nat → Nat → Nat → AttemptResult T × List Nat
  | i, 0, _ =>
    match attempts i with
    | .ok v => (.ok v, [])
    | .err e => (.err e, [])
  | i, n + 1, delay =>
    match attempts i with
    | .ok v => (.ok v, [])
    | .err e =>
      if isQuotaError e then
        ((retryWithBackoff attempts (i + 1) n (delay * 2)).1,
          delay :: (retryWithBackoff attempts (i + 1) n (delay * 2)).2)
      else (.err e, [])

/-- The sequence of backoff delays available to `retryWithBackoff` when
it starts with the given retry budget and base delay: the base delay,
doubling on each retry. -/
def delaysList : Nat → Nat → List Nat
  | 0, _ => []
  | n + 1, delay => delay :: delaysList n (delay * 2)

/-- Recognition status of useSpeechRecognition.ts. -/
inductive TranscriptionStatus where
  | idle
  | recording
  | paused
  | stopped
deriving DecidableEq, Repr

/-- State relevant to the recognition error handler: the current status
(statusRef), the consecutive-restart counter (restartCount) and whether
an error message has been surfaced (setError). -/
structure RecognizerState where
  status : TranscriptionStatus
  restartCount : Nat
  errorSurfaced : Bool
deriving DecidableEq, Repr

/-- The recognition.onerror handler (useSpeechRecognition.ts lines
145-153): surface a mapped error message, and schedule a restart exactly
when still recording and fewer than 3 consecutive restarts have happened.
The boolean result records whether a restart was scheduled.  The error
code only selects the surfaced message; it does not enter the restart
condition. -/
def onRecognitionError (s : RecognizerState) (errCode : Str) : RecognizerState × Bool :=
  if s.status = TranscriptionStatus.recording ∧ s.restartCount < 3 then
    ({ s with errorSurfaced := true, restartCount := s.restartCount + 1 }, true)
  else ({ s with errorSurfaced := true }, false)

/-- The reset of restartCount at the start of recognition.onresult
(useSpeechRecognition.ts line 88). -/
def onResultReset (s : RecognizerState) : RecognizerState := { s with restartCount := 0 }

/-- Folding a sequence of consecutive error events (no intervening
result), counting how many scheduled a restart. -/
def onRecognitionErrors (s : RecognizerState) : List Str → RecognizerState × Nat
  | [] => (s, 0)
  | code :: rest =>
    ((onRecognitionErrors (onRecognitionError s code).1 rest).1,
      (if (onRecognitionError s code).2 then 1 else 0) +
        (onRecognitionErrors (onRecognitionError s code).1 rest).2)

/-- The error code of a user-denied microphone permission
(ERROR_MAP key 'not-allowed'). -/
def userDeniedCode : Str := "not-allowed".data

/-- Strengthened invariant carried through the batch-free operation
sequences: the watermarks are ordered and in range, the refined watermark
cuts the buffer at most two characters into a trailing-whitespace run
(and exactly two only at the very end), and the buffer never starts with
whitespace. -/
def Linv (s : PipelineState) : Prop :=
  s.processedRef ≤ s.refinedRef ∧
  s.refinedRef ≤ s.text.length ∧
  trailingWs (s.text.take s.refinedRef) ≤ 2 ∧
  (trailingWs (s.text.take s.refinedRef) = 2 → s.refinedRef = s.text.length) ∧
  headOk s.text

/-! Basic facts about the whitespace-trimming operations. -/

theorem isTerm_isWs_false (c : Char) (h : isTerm c = true) : isWs c = false := by
  unfold isTerm at h
  rcases Bool.or_eq_true_iff.mp h with h1 | h1
  · rcases Bool.or_eq_true_iff.mp h1 with h2 | h2
    · rw [show c = '.' from by exact_mod_cast of_decide_eq_true h2]; decide
    · rw [show c = '!' from by exact_mod_cast of_decide_eq_true h2]; decide
  · rw [show c = '?' from by exact_mod_cast of_decide_eq_true h1]; decide

theorem isWs_toUpper (c : Char) (h : isWs (Char.toUpper c) = true) : isWs c = true := by
  by_cases hr : c.toNat ≥ 97 ∧ c.toNat ≤ 122
  · exfalso
    have hup : Char.toUpper c = Char.ofNat (c.toNat - 32) := by
      unfold Char.toUpper
      simp [hr]
    rw [hup] at h
    obtain ⟨h97, h122⟩ := hr
    interval_cases h97 : c.toNat <;> revert h <;> decide
  · have hid : Char.toUpper c = c := by
      unfold Char.toUpper
      simp [hr]
    rwa [hid] at h

theorem isWs_toUpper_false (c : Char) (h : isWs c = false) : isWs (Char.toUpper c) = false := by
  cases hu : isWs (Char.toUpper c)
  · rfl
  · rw [isWs_toUpper c hu] at h; cases h

theorem trimEnd_append_wsTail (l : Str) : trimEnd l ++ wsTail l = l := by
  unfold trimEnd wsTail
  rw [← List.reverse_append, List.takeWhile_append_dropWhile, List.reverse_reverse]

theorem length_trimEnd_add (l : Str) : (trimEnd l).length + trailingWs l = l.length := by
  have h := congrArg List.length (trimEnd_append_wsTail l)
  rw [List.length_append] at h
  unfold trailingWs wsTail at *
  simpa using h

theorem takeWhile_dropWhile_nil (p : Char → Bool) (x : Str) :
    (x.dropWhile p).takeWhile p = [] := by
  induction x with
  | nil => rfl
  | cons c cs ih =>
    by_cases hp : p c
    · simp [List.dropWhile_cons, hp, ih]
    · simp [List.dropWhile_cons, List.takeWhile_cons, hp]

theorem trailingWs_trimEnd (l : Str) : trailingWs (trimEnd l) = 0 := by
  unfold trailingWs trimEnd
  rw [List.reverse_reverse, takeWhile_dropWhile_nil]
  rfl

theorem trimEnd_eq_self (l : Str) (h : trailingWs l = 0) : trimEnd l = l := by
  unfold trailingWs at h
  rw [List.length_eq_zero] at h
  have h2 := List.takeWhile_append_dropWhile (p := isWs) (l := l.reverse)
  rw [h, List.nil_append] at h2
  unfold trimEnd
  rw [h2, List.reverse_reverse]

theorem mem_wsTail_isWs (l : Str) (c : Char) (h : c ∈ wsTail l) : isWs c = true := by
  unfold wsTail at h
  rw [List.mem_reverse] at h
  exact List.mem_takeWhile_imp h

theorem trailingWs_append_nonws (l s : Str) (hne : s ≠ []) (hs : trailingWs s = 0) :
    trailingWs (l ++ s) = 0 := by
  obtain ⟨c, cs, hrev⟩ : ∃ c cs, s.reverse = c :: cs := by
    cases hr : s.reverse with
    | nil => exact absurd (List.reverse_eq_nil_iff.mp hr) hne
    | cons c cs => exact ⟨c, cs, rfl⟩
  unfold trailingWs at hs ⊢
  rw [hrev] at hs
  have hwc : isWs c = false := by
    cases hw : isWs c
    · rfl
    · rw [List.takeWhile_cons, hw] at hs; simp at hs
  rw [List.reverse_append, hrev, List.cons_append, List.takeWhile_cons, hwc]
  simp

theorem trailingWs_append_ws (l : Str) (c : Char) (h : isWs c = true) :
    trailingWs (l ++ [c]) = trailingWs l + 1 := by
  unfold trailingWs
  rw [List.reverse_append]
  simp only [List.reverse_singleton, List.singleton_append, List.takeWhile_cons, h]
  simp

theorem trailingWs_append_allws (l s : Str) (h : ∀ c ∈ s, isWs c = true) :
    trailingWs (l ++ s) = trailingWs l + s.length := by
  induction s generalizing l with
  | nil => simp
  | cons c cs ih =>
    have h1 : l ++ c :: cs = (l ++ [c]) ++ cs := by simp
    rw [h1, ih (l ++ [c]) (fun d hd => h d (List.mem_cons_of_mem _ hd)),
      trailingWs_append_ws l c (h c (List.mem_cons_self _ _))]
    simp [Nat.add_assoc, Nat.add_comm 1 cs.length]

theorem exists_nonws_of_trailing_zero (l : Str) (hne : l ≠ []) (h : trailingWs l = 0) :
    ∃ c ∈ l, isWs c = false := by
  obtain ⟨c, cs, hrev⟩ : ∃ c cs, l.reverse = c :: cs := by
    cases hr : l.reverse with
    | nil => exact absurd (List.reverse_eq_nil_iff.mp hr) hne
    | cons c cs => exact ⟨c, cs, rfl⟩
  unfold trailingWs at h
  rw [hrev] at h
  have hwc : isWs c = false := by
    cases hw : isWs c
    · rfl
    · rw [List.takeWhile_cons, hw] at h; simp at h
  refine ⟨c, ?_, hwc⟩
  rw [← List.mem_reverse, hrev]
  exact List.mem_cons_self _ _

theorem trimEnd_eq_nil_iff (l : Str) : trimEnd l = [] ↔ ∀ c ∈ l, isWs c = true := by
  unfold trimEnd
  rw [List.reverse_eq_nil_iff, List.dropWhile_eq_nil_iff]
  constructor
  · intro h c hc
    exact h c (List.mem_reverse.mpr hc)
  · intro h c hc
    exact h c (List.mem_reverse.mp hc)

theorem trim_eq_nil_iff (l : Str) : trim l = [] ↔ ∀ c ∈ l, isWs c = true := by
  unfold trim trimStart
  rw [List.dropWhile_eq_nil_iff]
  constructor
  · intro h c hc
    by_cases hte : trimEnd l = []
    · exact (trimEnd_eq_nil_iff l).mp hte c hc
    · exfalso
      obtain ⟨d, hd, hdw⟩ := exists_nonws_of_trailing_zero (trimEnd l) hte (trailingWs_trimEnd l)
      rw [h d hd] at hdw
      cases hdw
  · intro h c hc
    have : trimEnd l = [] := (trimEnd_eq_nil_iff l).mpr h
    rw [this] at hc
    cases hc

theorem trim_ne_of_mem_nonws (m : Str) (c : Char) (hc : c ∈ m) (hw : isWs c = false)
    (h : trim m = []) : False := by
  rw [(trim_eq_nil_iff m).mp h c hc] at hw
  cases hw

theorem length_takeWhile_le_append (p : Char → Bool) (a b : Str) :
    (a.takeWhile p).length ≤ ((a ++ b).takeWhile p).length := by
  rw [List.takeWhile_append]
  split
  · rename_i h
    rw [List.length_append]
    omega
  · exact Nat.le_refl _

theorem trailingWs_suffix_le (l1 l2 : Str) (h : l1 <:+ l2) : trailingWs l1 ≤ trailingWs l2 := by
  obtain ⟨t, rfl⟩ := h
  unfold trailingWs
  rw [List.reverse_append]
  exact length_takeWhile_le_append isWs l1.reverse t.reverse

theorem trailingWs_trimStart (l : Str) (h : trailingWs l = 0) : trailingWs (trimStart l) = 0 := by
  have hs : trimStart l <:+ l := List.dropWhile_suffix isWs
  have := trailingWs_suffix_le (trimStart l) l hs
  omega

theorem trailingWs_trim (l : Str) : trailingWs (trim l) = 0 :=
  trailingWs_trimStart (trimEnd l) (trailingWs_trimEnd l)

theorem head_dropWhile_false (p : Char → Bool) (l : Str) (c : Char) (t : Str)
    (h : l.dropWhile p = c :: t) : p c = false := by
  induction l with
  | nil => simp at h
  | cons a as ih =>
    rw [List.dropWhile_cons] at h
    split at h
    · exact ih h
    · rename_i hp
      injection h with h1 h2
      subst h1
      simpa using hp

theorem headOk_dropWhile (l : Str) : headOk (l.dropWhile isWs) := by
  cases hd : l.dropWhile isWs with
  | nil => trivial
  | cons c t => exact head_dropWhile_false isWs l c t hd

theorem headOk_trim (l : Str) : headOk (trim l) := headOk_dropWhile (trimEnd l)

theorem headOk_append_left (a b : Str) (ha : headOk a) (hne : a ≠ []) : headOk (a ++ b) := by
  cases a with
  | nil => exact absurd rfl hne
  | cons c t => exact ha

theorem headOk_trimEnd (l : Str) (h : headOk l) : headOk (trimEnd l) := by
  cases htr : trimEnd l with
  | nil => trivial
  | cons c t =>
    show isWs c = false
    have hl : l = c :: (t ++ wsTail l) := by
      conv_lhs => rw [← trimEnd_append_wsTail l]
      rw [htr, List.cons_append]
    rw [hl] at h
    exact h

theorem eq_nil_of_trimEnd_nil_headOk (l : Str) (h : trimEnd l = []) (hh : headOk l) : l = [] := by
  cases l with
  | nil => rfl
  | cons c t =>
    have := (trimEnd_eq_nil_iff _).mp h c (List.mem_cons_self _ _)
    rw [show isWs c = false from hh] at this
    cases this

/-! Facts about capitalize. -/

theorem capitalize_eq_nil_iff (l : Str) : capitalize l = [] ↔ l = [] := by
  cases l <;> simp [capitalize]

theorem headOk_capitalize_trim (s : Str) : headOk (capitalize (trim s)) := by
  cases h : trim s with
  | nil => simp [capitalize]; trivial
  | cons c t =>
    have hc : isWs c = false := by
      have := headOk_trim s
      rwa [h] at this
    show headOk (Char.toUpper c :: t)
    exact isWs_toUpper_false c hc

theorem trailingWs_cons_of_nonnil (a : Char) (cs : Str) (hne : cs ≠ [])
    (h : trailingWs cs = 0) : trailingWs (a :: cs) = 0 := by
  have : (a :: cs) = [a] ++ cs := rfl
  rw [this]
  exact trailingWs_append_nonws [a] cs hne h

theorem trailingWs_tail (c : Char) (cs : Str) (h : trailingWs (c :: cs) = 0) :
    trailingWs cs = 0 := by
  have hs : cs <:+ c :: cs := ⟨[c], rfl⟩
  have := trailingWs_suffix_le cs (c :: cs) hs
  omega

theorem trailingWs_capitalize_trim (s : Str) (h : trim s ≠ []) :
    trailingWs (capitalize (trim s)) = 0 := by
  cases hts : trim s with
  | nil => exact absurd hts h
  | cons c cs =>
    have hws : trailingWs (c :: cs) = 0 := by rw [← hts]; exact trailingWs_trim s
    show trailingWs (Char.toUpper c :: cs) = 0
    cases hcs : cs with
    | nil =>
      have hc : isWs c = false := by
        have := headOk_trim s
        rwa [hts] at this
      have hcu : isWs (Char.toUpper c) = false := isWs_toUpper_false c hc
      unfold trailingWs
      simp [List.takeWhile_cons, hcu]
    | cons d ds =>
      rw [← hcs]
      refine trailingWs_cons_of_nonnil _ cs (by rw [hcs]; simp) ?_
      exact trailingWs_tail c cs hws

/-! Facts about take and the trimmed decomposition. -/

theorem take_eq_take_trimEnd (l : Str) (r : Nat) (h : r ≤ (trimEnd l).length) :
    l.take r = (trimEnd l).take r := by
  conv_lhs => rw [← trimEnd_append_wsTail l]
  exact List.take_append_of_le_length h

theorem take_trimEnd_add (l : Str) (k : Nat) :
    l.take ((trimEnd l).length + k) = trimEnd l ++ (wsTail l).take k := by
  have h := @List.take_append Char (trimEnd l) (wsTail l) k
  rw [trimEnd_append_wsTail l] at h
  exact h

theorem length_wsTail (l : Str) : (wsTail l).length = trailingWs l := by
  unfold wsTail trailingWs
  simp

theorem trailingWs_take_ge (l : Str) (r : Nat) (h1 : (trimEnd l).length ≤ r)
    (h2 : r ≤ l.length) : trailingWs (l.take r) = r - (trimEnd l).length := by
  have hlen := length_trimEnd_add l
  have hwt := length_wsTail l
  have hk : r - (trimEnd l).length ≤ (wsTail l).length := by omega
  have hdec : l.take r = trimEnd l ++ (wsTail l).take (r - (trimEnd l).length) := by
    have hr : r = (trimEnd l).length + (r - (trimEnd l).length) := by omega
    conv_lhs => rw [hr]
    exact take_trimEnd_add l _
  rw [hdec, trailingWs_append_allws _ _
    (fun c hc => mem_wsTail_isWs l c (List.mem_of_mem_take hc)),
    trailingWs_trimEnd, List.length_take, Nat.min_eq_left hk]
  omega

theorem le_trimEnd_add_trailing_take (l : Str) (r : Nat) (h2 : r ≤ l.length) :
    r ≤ (trimEnd l).length + trailingWs (l.take r) := by
  by_cases h : r ≤ (trimEnd l).length
  · omega
  · rw [trailingWs_take_ge l r (by omega) h2]
    omega

/-! Facts about the sentence scanner and the ingest commit. -/

theorem trailingWs_append_zero_right (a b : Str) (h : trailingWs (a ++ b) = 0) :
    trailingWs b = 0 := by
  have hs : b <:+ a ++ b := ⟨a, rfl⟩
  have := trailingWs_suffix_le b (a ++ b) hs
  omega

theorem trim_ne_of_mem_scan (rest : Str) : ∀ (cur : Str) (inWs : Bool),
    trailingWs (cur ++ rest) = 0 →
    (inWs = true → ∃ c ∈ cur, isWs c = false) →
    ∀ m ∈ scanSentences cur inWs rest, trim m ≠ [] := by
  induction rest with
  | nil =>
    intro cur inWs hw hc m hm
    unfold scanSentences at hm
    rw [List.append_nil] at hw
    split at hm
    · rename_i hiw
      rw [List.mem_singleton] at hm
      subst hm
      obtain ⟨c, hcm, hcw⟩ := hc hiw
      exact fun hnil => trim_ne_of_mem_nonws m c hcm hcw hnil
    · split at hm
      · simp at hm
      · rename_i hiw hcur
        rw [List.mem_singleton] at hm
        subst hm
        obtain ⟨c, hcm, hcw⟩ := exists_nonws_of_trailing_zero m hcur hw
        exact fun hnil => trim_ne_of_mem_nonws m c hcm hcw hnil
  | cons x xs ih =>
    intro cur inWs hw hc m hm
    have hxs : trailingWs xs = 0 := by
      refine trailingWs_append_zero_right (cur ++ [x]) xs ?_
      rw [List.append_assoc, List.singleton_append]
      exact hw
    have hw2 : trailingWs ((cur ++ [x]) ++ xs) = 0 := by
      rw [List.append_assoc, List.singleton_append]
      exact hw
    unfold scanSentences at hm
    split at hm
    · rename_i hiw
      split at hm
      · rename_i hwx
        refine ih (cur ++ [x]) true hw2 ?_ m hm
        intro _
        obtain ⟨c, hcm, hcw⟩ := hc hiw
        exact ⟨c, List.mem_append_left _ hcm, hcw⟩
      · split at hm
        all_goals
          rw [List.mem_cons] at hm
          rcases hm with hm | hm
        · subst hm
          obtain ⟨c, hcm, hcw⟩ := hc hiw
          exact fun hnil => trim_ne_of_mem_nonws m c hcm hcw hnil
        · exact ih [] false (by simpa using hxs) (by intro h; cases h) m hm
        · subst hm
          obtain ⟨c, hcm, hcw⟩ := hc hiw
          exact fun hnil => trim_ne_of_mem_nonws m c hcm hcw hnil
        · refine ih [x] false ?_ (by intro h; cases h) m hm
          rw [List.singleton_append]
          exact trailingWs_append_zero_right cur (x :: xs) hw
    · split at hm
      · split at hm
        · exact ih [] false (by simpa using hxs) (by intro h; cases h) m hm
        · rename_i htx _
          refine ih (cur ++ [x]) true hw2 ?_ m hm
          intro _
          exact ⟨x, List.mem_append_right _ (List.mem_singleton.mpr rfl),
            isTerm_isWs_false x (by simpa using htx)⟩
      · refine ih (cur ++ [x]) false hw2 ?_ m hm
        intro h; cases h

theorem sentenceMatches_trim_ne (chunk m : Str) (hw : trailingWs chunk = 0)
    (hm : m ∈ sentenceMatches chunk) : trim m ≠ [] := by
  refine trim_ne_of_mem_scan chunk [] false (by simpa using hw) ?_ m hm
  intro h; cases h

theorem matchesOf_ne_nil (chunk : Str) : matchesOf chunk ≠ [] := by
  unfold matchesOf
  split
  · simp
  · assumption

theorem matchesOf_trim_ne (chunk m : Str) (hch : chunk ≠ []) (hw : trailingWs chunk = 0)
    (hh : trim chunk = chunk) (hm : m ∈ matchesOf chunk) : trim m ≠ [] := by
  unfold matchesOf at hm
  split at hm
  · rw [List.mem_singleton] at hm
    subst hm
    rw [hh]
    exact hch
  · exact sentenceMatches_trim_ne chunk m hw hm

theorem trimStart_eq_self_of_headOk (l : Str) (h : headOk l) : trimStart l = l := by
  cases l with
  | nil => rfl
  | cons c t =>
    unfold trimStart
    rw [List.dropWhile_cons, if_neg]
    rw [show isWs c = false from h]
    simp

theorem trim_trim (l : Str) : trim (trim l) = trim l := by
  have h1 : trimEnd (trim l) = trim l := trimEnd_eq_self _ (trailingWs_trim l)
  show trimStart (trimEnd (trim l)) = trim l
  rw [h1]
  exact trimStart_eq_self_of_headOk _ (headOk_trim l)

/-! Facts about the separator decision and the unit-appending fold. -/

theorem separatorFor_nil : separatorFor [] = [] := rfl

theorem separatorFor_cases (acc : Str) (h : acc ≠ []) :
    separatorFor acc = ['\n'] ∨ separatorFor acc = [' '] := by
  unfold separatorFor
  rw [if_neg h]
  split
  · left; rfl
  · split
    · right; rfl
    · right; rfl

theorem appendUnit_of_nil (acc s : Str) (h : capitalize (trim s) = []) :
    appendUnit acc s = acc := by
  unfold appendUnit
  rw [if_pos h]

theorem appendUnit_of_ne (acc s : Str) (h : capitalize (trim s) ≠ []) :
    appendUnit acc s = acc ++ separatorFor acc ++ capitalize (trim s) := by
  unfold appendUnit
  rw [if_neg h]

theorem foldl_appendUnit_ext (ms : List Str) : ∀ (acc : Str), acc ≠ [] → trailingWs acc = 0 →
    ∃ ext, ms.foldl appendUnit acc = acc ++ ext ∧
      trailingWs (ms.foldl appendUnit acc) = 0 ∧ ms.foldl appendUnit acc ≠ [] := by
  induction ms with
  | nil =>
    intro acc h1 h2
    exact ⟨[], by simp, by simpa using h2, h1⟩
  | cons m rest ih =>
    intro acc h1 h2
    rw [List.foldl_cons]
    by_cases hm : capitalize (trim m) = []
    · rw [appendUnit_of_nil acc m hm]
      exact ih acc h1 h2
    · rw [appendUnit_of_ne acc m hm]
      have htm : trim m ≠ [] := fun hh => hm (by rw [hh]; rfl)
      have hS0 : trailingWs (capitalize (trim m)) = 0 := trailingWs_capitalize_trim m htm
      have hsc : separatorFor acc ++ capitalize (trim m) ≠ [] := by
        intro hh
        exact hm (List.append_eq_nil.mp hh).2
      have h1x : acc ++ separatorFor acc ++ capitalize (trim m) ≠ [] :=
        List.append_ne_nil_of_left_ne_nil (List.append_ne_nil_of_left_ne_nil h1 _) _
      have h2x : trailingWs (acc ++ separatorFor acc ++ capitalize (trim m)) = 0 := by
        rw [List.append_assoc]
        exact trailingWs_append_nonws acc _ hsc
          (trailingWs_append_nonws _ _ hm hS0)
      obtain ⟨ext, he, hw3, hn3⟩ := ih _ h1x h2x
      refine ⟨separatorFor acc ++ capitalize (trim m) ++ ext, ?_, hw3, hn3⟩
      rw [he]
      simp [List.append_assoc]

theorem commitFinalChunk_spec (x c : Str) :
    commitFinalChunk x c = x ∨
    ∃ sepa S ext, commitFinalChunk x c = trimEnd x ++ (sepa ++ (S ++ ext)) ∧
      trailingWs (commitFinalChunk x c) = 0 ∧ S ≠ [] ∧ headOk S ∧
      (trimEnd x = [] → sepa = []) ∧
      (trimEnd x ≠ [] → sepa = ['\n'] ∨ sepa = [' ']) := by
  unfold commitFinalChunk
  by_cases hch : trim c = []
  · rw [if_pos hch]
    left
    rfl
  · rw [if_neg hch]
    right
    have htw : trailingWs (trim c) = 0 := trailingWs_trim c
    obtain ⟨m, rest, hms⟩ : ∃ m rest, matchesOf (trim c) = m :: rest := by
      cases hmm : matchesOf (trim c) with
      | nil => exact absurd hmm (matchesOf_ne_nil _)
      | cons m rest => exact ⟨m, rest, rfl⟩
    have htm : trim m ≠ [] :=
      matchesOf_trim_ne (trim c) m hch htw (trim_trim c) (by rw [hms]; exact List.mem_cons_self _ _)
    have hcap : capitalize (trim m) ≠ [] := by
      rw [Ne, capitalize_eq_nil_iff]
      exact htm
    have hS0 : trailingWs (capitalize (trim m)) = 0 := trailingWs_capitalize_trim m htm
    rw [hms, List.foldl_cons, appendUnit_of_ne _ _ hcap]
    by_cases hacc : trimEnd x = []
    · rw [hacc]
      have hred : ([] : Str) ++ separatorFor [] ++ capitalize (trim m) = capitalize (trim m) := by
        rw [separatorFor_nil]
        simp
      rw [hred]
      obtain ⟨ext, he, hw3, hn3⟩ := foldl_appendUnit_ext rest (capitalize (trim m)) hcap hS0
      refine ⟨[], capitalize (trim m), ext, by rw [he]; simp, hw3, hcap,
        headOk_capitalize_trim m, fun _ => rfl, fun hne => absurd rfl hne⟩
    · rcases separatorFor_cases (trimEnd x) hacc with hsep | hsep
      all_goals
        have h1x : trimEnd x ++ separatorFor (trimEnd x) ++ capitalize (trim m) ≠ [] :=
          List.append_ne_nil_of_left_ne_nil (List.append_ne_nil_of_left_ne_nil hacc _) _
        have h2x : trailingWs (trimEnd x ++ separatorFor (trimEnd x) ++ capitalize (trim m)) = 0 := by
          rw [List.append_assoc]
          refine trailingWs_append_nonws _ _ ?_ (trailingWs_append_nonws _ _ hcap hS0)
          intro hh
          exact hcap (List.append_eq_nil.mp hh).2
        obtain ⟨ext, he, hw3, hn3⟩ := foldl_appendUnit_ext rest _ h1x h2x
        refine ⟨separatorFor (trimEnd x), capitalize (trim m), ext, by rw [he]; simp, hw3,
          hcap, headOk_capitalize_trim m, fun h => absurd h hacc, fun _ => ?_⟩
      · left; exact hsep
      · right; exact hsep

theorem silenceCommit_spec (x : Str) :
    silenceCommit x = x ∨
    (trimEnd x ≠ [] ∧
      (silenceCommit x = trimEnd x ++ ['.', '\n', '\n'] ∨
        silenceCommit x = trimEnd x ++ ['\n', '\n'])) := by
  unfold silenceCommit
  split
  · rename_i h
    right
    rw [Bool.and_eq_true, decide_eq_true_iff] at h
    refine ⟨?_, Or.inl rfl⟩
    intro hn
    rw [hn] at h
    simp at h
  · split
    · rename_i h
      right
      rw [Bool.and_eq_true, decide_eq_true_iff] at h
      refine ⟨?_, Or.inr rfl⟩
      intro hn
      rw [hn] at h
      simp at h
    · left
      rfl

/-! Equation lemmas reducing the stage operations to their branch form. -/

theorem applyRefinement_eq (x : Str) (r0 : Nat) (rt : Str) :
    applyRefinement x r0 rt =
      (x.take r0 ++
        (if jsEndsWith (x.take r0) ['\n'] || decide (x.take r0 = []) then [] else [' ']) ++
        trim rt,
       (x.take r0 ++
        (if jsEndsWith (x.take r0) ['\n'] || decide (x.take r0 = []) then [] else [' ']) ++
        trim rt).length) := rfl

theorem refineEnglishTranscript_none_eq (s : PipelineState) (v : Int) :
    refineEnglishTranscript s v none =
      if (trim (s.text.drop s.refinedRef)).length < minThreshold v then s else s := rfl

theorem refineEnglishTranscript_some_eq (s : PipelineState) (v : Int) (rtv : Str) :
    refineEnglishTranscript s v (some rtv) =
      if (trim (s.text.drop s.refinedRef)).length < minThreshold v then s
      else
        if rtv = [] then s
        else { s with text := (applyRefinement s.text s.refinedRef rtv).1,
                      refinedRef := (applyRefinement s.text s.refinedRef rtv).2 } := rfl

theorem performTranslation_none_eq (s : PipelineState) (b : Bool) :
    performTranslation s b none =
      if (trim (translationChunk s b)).length = 0 then (s, false) else (s, true) := rfl

theorem performTranslation_some_eq (s : PipelineState) (b : Bool) (rtv : Str) :
    performTranslation s b (some rtv) =
      if (trim (translationChunk s b)).length = 0 then (s, false)
      else
        if rtv = [] then (s, true)
        else
          if trim rtv = [] then (s, true)
          else
            ({ s with
                translatedText := appendTranslated s.translatedText (trim rtv) b,
                processedRef := translationEnd s b }, true) := rfl

theorem minThreshold_pos (v : Int) : 0 < minThreshold v := by
  unfold minThreshold
  split <;> omega

theorem appendTranslated_batch_eq (prev val : Str) :
    appendTranslated prev val true =
      trimEnd prev ++
        (if decide ((trimEnd prev).length > 0) && !(jsEndsWith (trimEnd prev) ['\n']) then
          batchMarker else []) ++ val := rfl

theorem appendTranslated_incr_eq (prev val : Str) :
    appendTranslated prev val false =
      trimEnd prev ++
        (if decide ((trimEnd prev).length > 0) && !(jsEndsWith (trimEnd prev) ['\n']) then
          ['\n'] else []) ++ val := rfl

/-! Preservation of the strengthened invariant by each non-batch stage
operation. -/

theorem trailingWs_singleton_nonws (c : Char) (h : isWs c = false) : trailingWs [c] = 0 := by
  unfold trailingWs
  simp [List.takeWhile_cons, h]

theorem headOk_take (x : Str) (r : Nat) (h : headOk x) : headOk (x.take r) := by
  cases x with
  | nil => simp [List.take_nil]; trivial
  | cons c t =>
    cases r with
    | zero => trivial
    | succ n => exact h

theorem take_append_left_of_le (x z : Str) (r : Nat) (hle : r ≤ (trimEnd x).length)
    (hr : r ≤ x.length) : (trimEnd x ++ z).take r = x.take r := by
  rw [List.take_append_of_le_length hle, ← take_eq_take_trimEnd x r hle]

theorem w_ne_two_of_le (x : Str) (r : Nat) (hle : r ≤ (trimEnd x).length) (hr : r ≤ x.length)
    (hw2e : trailingWs (x.take r) = 2 → r = x.length) : trailingWs (x.take r) ≠ 2 := by
  intro hw
  have hrx := hw2e hw
  have hlen := length_trimEnd_add x
  have ht0 : trailingWs x = 0 := by omega
  rw [hrx, List.take_length] at hw
  omega

theorem Linv_clear (s : PipelineState) : Linv (stageStep s .clear) := by
  have he : stageStep s .clear =
      { text := [], refinedRef := 0, processedRef := 0, translatedText := s.translatedText } := rfl
  rw [he]
  refine ⟨Nat.le_refl _, Nat.le_refl _, ?_, ?_, trivial⟩
  · show trailingWs (List.take 0 []) ≤ 2
    simp [trailingWs]
  · show trailingWs (List.take 0 []) = 2 → _
    intro h2
    simp [trailingWs] at h2

theorem Linv_translate_incr (s : PipelineState) (rt : Option Str) (h : Linv s) :
    Linv (stageStep s (.translate false rt)) := by
  obtain ⟨hp, hr, hw2, hw2e, hh⟩ := h
  show Linv (performTranslation s false rt).1
  cases rt with
  | none =>
    rw [performTranslation_none_eq]
    by_cases h1 : (trim (translationChunk s false)).length = 0
    · rw [if_pos h1]
      exact ⟨hp, hr, hw2, hw2e, hh⟩
    · rw [if_neg h1]
      exact ⟨hp, hr, hw2, hw2e, hh⟩
  | some rtv =>
    rw [performTranslation_some_eq]
    by_cases h1 : (trim (translationChunk s false)).length = 0
    · rw [if_pos h1]
      exact ⟨hp, hr, hw2, hw2e, hh⟩
    · rw [if_neg h1]
      by_cases h2 : rtv = []
      · rw [if_pos h2]
        exact ⟨hp, hr, hw2, hw2e, hh⟩
      · rw [if_neg h2]
        by_cases h3 : trim rtv = []
        · rw [if_pos h3]
          exact ⟨hp, hr, hw2, hw2e, hh⟩
        · rw [if_neg h3]
          refine ⟨?_, hr, hw2, hw2e, hh⟩
          show translationEnd s false ≤ s.refinedRef
          unfold translationEnd
          simp

theorem Linv_refine (s : PipelineState) (v : Int) (rt : Option Str) (h : Linv s) :
    Linv (refineEnglishTranscript s v rt) := by
  obtain ⟨hp, hr, hw2, hw2e, hh⟩ := h
  cases rt with
  | none =>
    rw [refineEnglishTranscript_none_eq]
    by_cases hgate : (trim (s.text.drop s.refinedRef)).length < minThreshold v
    · rw [if_pos hgate]
      exact ⟨hp, hr, hw2, hw2e, hh⟩
    · rw [if_neg hgate]
      exact ⟨hp, hr, hw2, hw2e, hh⟩
  | some rtv =>
    rw [refineEnglishTranscript_some_eq]
    by_cases hgate : (trim (s.text.drop s.refinedRef)).length < minThreshold v
    · rw [if_pos hgate]
      exact ⟨hp, hr, hw2, hw2e, hh⟩
    · rw [if_neg hgate]
      by_cases hrtv : rtv = []
      · rw [if_pos hrtv]
        exact ⟨hp, hr, hw2, hw2e, hh⟩
      · rw [if_neg hrtv]
        rw [applyRefinement_eq]
        have hheadlen : (s.text.take s.refinedRef).length = s.refinedRef := by
          rw [List.length_take]
          omega
        constructor
        · -- processedRef ≤ new refinedRef
          show s.processedRef ≤ (s.text.take s.refinedRef ++ _ ++ trim rtv).length
          rw [List.length_append, List.length_append, hheadlen]
          omega
        refine ⟨Nat.le_refl _, ?_, fun _ => rfl, ?_⟩
        · -- trailing whitespace at the new watermark, which is the full length
          rw [List.take_length]
          by_cases hrf : trim rtv = []
          · rw [hrf]
            split
            · rename_i hsep
              rw [List.append_nil, List.append_nil]
              have hwr : trailingWs (s.text.take s.refinedRef) ≤ 2 := hw2
              exact hwr
            · rename_i hsep
              rw [List.append_nil]
              have hwle1 : trailingWs (s.text.take s.refinedRef) ≤ 1 := by
                by_cases hw2' : trailingWs (s.text.take s.refinedRef) = 2
                · exfalso
                  have hrx := hw2e hw2'
                  rw [hrx, List.drop_length] at hgate
                  exact hgate (minThreshold_pos v)
                · omega
              rw [trailingWs_append_ws _ ' ' (by decide)]
              omega
          · rw [trailingWs_append_nonws _ _ hrf (trailingWs_trim rtv)]
            omega
        · -- headOk of the spliced text
          by_cases hr0 : s.refinedRef = 0
          · have htk : s.text.take s.refinedRef = [] := by rw [hr0]; rfl
            rw [htk]
            have hsep : (if jsEndsWith ([] : Str) ['\n'] || decide (([] : Str) = []) then ([] : Str)
                else [' ']) = [] := by decide
            rw [hsep]
            simp only [List.nil_append]
            exact headOk_trim rtv
          · have htkne : s.text.take s.refinedRef ≠ [] := by
              intro hh2
              have := congrArg List.length hh2
              rw [hheadlen] at this
              exact hr0 this
            rw [List.append_assoc]
            exact headOk_append_left _ _ (headOk_take s.text s.refinedRef hh) htkne

theorem Linv_ingest (s : PipelineState) (c : Str) (h : Linv s) :
    Linv { s with text := commitFinalChunk s.text c } := by
  obtain ⟨hp, hr, hw2, hw2e, hh⟩ := h
  rcases commitFinalChunk_spec s.text c with heq |
    ⟨sepa, S, ext, hshape, htr0, hSne, hSok, hsep0, hsep1⟩
  · exact ⟨hp, by rw [heq]; exact hr, by rw [heq]; exact hw2, by rw [heq]; exact hw2e,
      by rw [heq]; exact hh⟩
  by_cases hacc : trimEnd s.text = []
  · -- the buffer was empty: headOk rules out an all-whitespace nonempty buffer
    have hx : s.text = [] := eq_nil_of_trimEnd_nil_headOk s.text hacc hh
    have hr0 : s.refinedRef = 0 := by
      rw [hx] at hr
      simpa using hr
    refine ⟨hp, ?_, ?_, ?_, ?_⟩
    · show s.refinedRef ≤ (commitFinalChunk s.text c).length
      omega
    · show trailingWs ((commitFinalChunk s.text c).take s.refinedRef) ≤ 2
      rw [hr0, List.take_zero]
      simp [trailingWs]
    · show trailingWs ((commitFinalChunk s.text c).take s.refinedRef) = 2 → _
      rw [hr0, List.take_zero]
      intro h2
      simp [trailingWs] at h2
    · show headOk (commitFinalChunk s.text c)
      rw [hshape, hacc, hsep0 hacc]
      simp only [List.nil_append]
      exact headOk_append_left S ext hSok hSne
  · obtain ⟨sc, hsc, hscw⟩ : ∃ sc, sepa = [sc] ∧ isWs sc = true := by
      rcases hsep1 hacc with hs | hs
      · exact ⟨'\n', hs, by decide⟩
      · exact ⟨' ', hs, by decide⟩
    have hSlen : 1 ≤ S.length := List.length_pos.mpr hSne
    have hlen : (trimEnd s.text).length + 2 ≤ (commitFinalChunk s.text c).length := by
      rw [hshape, hsc]
      simp [List.length_append]
      omega
    have hb := le_trimEnd_add_trailing_take s.text s.refinedRef hr
    have hkey : trailingWs ((commitFinalChunk s.text c).take s.refinedRef) ≤ 2 ∧
        (trailingWs ((commitFinalChunk s.text c).take s.refinedRef) = 2 →
          s.refinedRef = (commitFinalChunk s.text c).length) := by
      rcases Nat.lt_or_ge s.refinedRef ((trimEnd s.text).length + 1) with hcase | hcase
      · -- the watermark lies inside the trimmed prefix
        have hle : s.refinedRef ≤ (trimEnd s.text).length := by omega
        have htake : (commitFinalChunk s.text c).take s.refinedRef =
            s.text.take s.refinedRef := by
          rw [hshape]
          exact take_append_left_of_le s.text _ s.refinedRef hle hr
        rw [htake]
        exact ⟨hw2, fun h2 => absurd h2 (w_ne_two_of_le s.text s.refinedRef hle hr hw2e)⟩
      · rcases Nat.eq_or_lt_of_le hcase with hk1 | hk2
        · -- the watermark cuts right after the separator character
          have htake : (commitFinalChunk s.text c).take s.refinedRef =
              trimEnd s.text ++ [sc] := by
            rw [hshape, ← hk1, @List.take_append _ (trimEnd s.text) _ 1, hsc]
            rfl
          rw [htake, trailingWs_append_ws _ sc hscw, trailingWs_trimEnd]
          refine ⟨by omega, ?_⟩
          intro h2
          omega
        · -- the watermark cuts one character into the first appended unit
          have hrk : s.refinedRef = (trimEnd s.text).length + 2 := by omega
          obtain ⟨s0, S2, hS⟩ : ∃ s0 S2, S = s0 :: S2 := by
            cases hS0 : S with
            | nil => exact absurd hS0 hSne
            | cons a b => exact ⟨a, b, rfl⟩
          have hs0w : isWs s0 = false := by
            rw [hS] at hSok
            exact hSok
          have htake : (commitFinalChunk s.text c).take s.refinedRef =
              (trimEnd s.text ++ [sc]) ++ [s0] := by
            rw [hshape, hrk, @List.take_append _ (trimEnd s.text) _ 2, hsc, hS]
            simp
          rw [htake, trailingWs_append_nonws _ _ (by simp)
            (trailingWs_singleton_nonws s0 hs0w)]
          refine ⟨by omega, ?_⟩
          intro h2
          omega
    refine ⟨hp, ?_, hkey.1, hkey.2, ?_⟩
    · show s.refinedRef ≤ (commitFinalChunk s.text c).length
      omega
    · show headOk (commitFinalChunk s.text c)
      rw [hshape]
      exact headOk_append_left _ _ (headOk_trimEnd s.text hh) hacc

theorem Linv_silence (s : PipelineState) (h : Linv s) :
    Linv { s with text := silenceCommit s.text } := by
  obtain ⟨hp, hr, hw2, hw2e, hh⟩ := h
  rcases silenceCommit_spec s.text with heq | ⟨hacc, hbr⟩
  · exact ⟨hp, by rw [heq]; exact hr, by rw [heq]; exact hw2, by rw [heq]; exact hw2e,
      by rw [heq]; exact hh⟩
  have hb := le_trimEnd_add_trailing_take s.text s.refinedRef hr
  have hhok : headOk (silenceCommit s.text) := by
    rcases hbr with hs | hs <;> rw [hs] <;>
      exact headOk_append_left _ _ (headOk_trimEnd s.text hh) hacc
  have hlenge : (trimEnd s.text).length + 2 ≤ (silenceCommit s.text).length := by
    rcases hbr with hs | hs <;> rw [hs] <;> simp [List.length_append]
  have hkey : trailingWs ((silenceCommit s.text).take s.refinedRef) ≤ 2 ∧
      (trailingWs ((silenceCommit s.text).take s.refinedRef) = 2 →
        s.refinedRef = (silenceCommit s.text).length) := by
    rcases Nat.lt_or_ge s.refinedRef ((trimEnd s.text).length + 1) with hcase | hcase
    · have hle : s.refinedRef ≤ (trimEnd s.text).length := by omega
      have htake : (silenceCommit s.text).take s.refinedRef = s.text.take s.refinedRef := by
        rcases hbr with hs | hs <;> rw [hs] <;>
          exact take_append_left_of_le s.text _ s.refinedRef hle hr
      rw [htake]
      exact ⟨hw2, fun h2 => absurd h2 (w_ne_two_of_le s.text s.refinedRef hle hr hw2e)⟩
    · rcases Nat.eq_or_lt_of_le hcase with hk1 | hk2
      · -- the watermark cuts right after the first appended character
        rcases hbr with hs | hs
        · have htake : (silenceCommit s.text).take s.refinedRef =
              trimEnd s.text ++ ['.'] := by
            rw [hs, ← hk1, @List.take_append _ (trimEnd s.text) _ 1]
            rfl
          rw [htake, trailingWs_append_nonws _ _ (by simp)
            (trailingWs_singleton_nonws '.' (by decide))]
          refine ⟨by omega, ?_⟩
          intro h2
          omega
        · have htake : (silenceCommit s.text).take s.refinedRef =
              trimEnd s.text ++ ['\n'] := by
            rw [hs, ← hk1, @List.take_append _ (trimEnd s.text) _ 1]
            rfl
          rw [htake, trailingWs_append_ws _ '\n' (by decide), trailingWs_trimEnd]
          refine ⟨by omega, ?_⟩
          intro h2
          omega
      · -- the watermark cuts two characters into the appended tail
        have hrk : s.refinedRef = (trimEnd s.text).length + 2 := by omega
        rcases hbr with hs | hs
        · have htake : (silenceCommit s.text).take s.refinedRef =
              (trimEnd s.text ++ ['.']) ++ ['\n'] := by
            rw [hs, hrk, @List.take_append _ (trimEnd s.text) _ 2]
            simp
          rw [htake, trailingWs_append_ws _ '\n' (by decide),
            trailingWs_append_nonws _ _ (by simp)
              (trailingWs_singleton_nonws '.' (by decide))]
          refine ⟨by omega, ?_⟩
          intro h2
          omega
        · have htake : (silenceCommit s.text).take s.refinedRef =
              (trimEnd s.text ++ ['\n']) ++ ['\n'] := by
            rw [hs, hrk, @List.take_append _ (trimEnd s.text) _ 2]
            simp
          have hlen : (silenceCommit s.text).length = (trimEnd s.text).length + 2 := by
            rw [hs]
            simp [List.length_append]
          rw [htake, trailingWs_append_ws _ '\n' (by decide),
            trailingWs_append_ws _ '\n' (by decide), trailingWs_trimEnd]
          refine ⟨by omega, ?_⟩
          intro h2
          omega
  refine ⟨hp, ?_, hkey.1, hkey.2, hhok⟩
  show s.refinedRef ≤ (silenceCommit s.text).length
  omega

theorem Linv_init : Linv initState := by
  refine ⟨Nat.le_refl _, Nat.le_refl _, ?_, ?_, trivial⟩
  · show trailingWs (List.take 0 []) ≤ 2
    simp [trailingWs]
  · show trailingWs (List.take 0 []) = 2 → _
    intro h2
    simp [trailingWs] at h2

theorem Linv_step (s : PipelineState) (op : StageOp) (hop : op.isBatchTranslate = false)
    (h : Linv s) : Linv (stageStep s op) := by
  cases op with
  | ingest c => exact Linv_ingest s c h
  | silence => exact Linv_silence s h
  | clear => exact Linv_clear s
  | refine v rt => exact Linv_refine s v rt h
  | translate b rt =>
    cases b with
    | false => exact Linv_translate_incr s rt h
    | true => exact absurd hop (by simp [StageOp.isBatchTranslate])

theorem Linv_foldl (l : List StageOp) : ∀ (s : PipelineState), Linv s →
    (∀ op ∈ l, op.isBatchTranslate = false) → Linv (l.foldl stageStep s) := by
  induction l with
  | nil => intro s hs _; exact hs
  | cons op rest ih =>
    intro s hs hl
    rw [List.foldl_cons]
    exact ih _ (Linv_step s op (hl op (List.mem_cons_self _ _)) hs)
      (fun o ho => hl o (List.mem_cons_of_mem _ ho))

theorem Linv_runOps (ops : List StageOp) (hops : ∀ op ∈ ops, op.isBatchTranslate = false) :
    Linv (runOps ops) :=
  Linv_foldl ops initState Linv_init hops

/-! Buffer-level facts about the ingest operations, for the length
monotonicity property. -/

theorem commitFinalChunk_good (x c : Str) (h1 : trailingWs x ≤ 2) (hh : headOk x) :
    trailingWs (commitFinalChunk x c) ≤ 2 ∧ headOk (commitFinalChunk x c) ∧
      x.length ≤ (commitFinalChunk x c).length := by
  rcases commitFinalChunk_spec x c with heq |
    ⟨sepa, S, ext, hshape, htr0, hSne, hSok, hsep0, hsep1⟩
  · rw [heq]
    exact ⟨h1, hh, Nat.le_refl _⟩
  refine ⟨by omega, ?_, ?_⟩
  · by_cases hacc : trimEnd x = []
    · rw [hshape, hacc, hsep0 hacc]
      simp only [List.nil_append]
      exact headOk_append_left S ext hSok hSne
    · rw [hshape]
      exact headOk_append_left _ _ (headOk_trimEnd x hh) hacc
  · by_cases hacc : trimEnd x = []
    · have hx : x = [] := eq_nil_of_trimEnd_nil_headOk x hacc hh
      rw [hx]
      simp
    · obtain ⟨sc, hsc, hscw⟩ : ∃ sc, sepa = [sc] ∧ isWs sc = true := by
        rcases hsep1 hacc with hs | hs
        · exact ⟨'\n', hs, by decide⟩
        · exact ⟨' ', hs, by decide⟩
      have hSlen : 1 ≤ S.length := List.length_pos.mpr hSne
      have hlen : (trimEnd x).length + 2 ≤ (commitFinalChunk x c).length := by
        rw [hshape, hsc]
        simp [List.length_append]
        omega
      have hlx := length_trimEnd_add x
      omega

theorem silenceCommit_good (x : Str) (h1 : trailingWs x ≤ 2) (hh : headOk x) :
    trailingWs (silenceCommit x) ≤ 2 ∧ headOk (silenceCommit x) ∧
      x.length ≤ (silenceCommit x).length := by
  rcases silenceCommit_spec x with heq | ⟨hacc, hbr⟩
  · rw [heq]
    exact ⟨h1, hh, Nat.le_refl _⟩
  have hlx := length_trimEnd_add x
  have hassoc1 : trimEnd x ++ ['.', '\n', '\n'] =
      (((trimEnd x ++ ['.']) ++ ['\n']) ++ ['\n']) := by simp
  have hassoc2 : trimEnd x ++ ['\n', '\n'] = ((trimEnd x ++ ['\n']) ++ ['\n']) := by simp
  refine ⟨?_, ?_, ?_⟩
  · rcases hbr with hs | hs
    · rw [hs, hassoc1, trailingWs_append_ws _ '\n' (by decide),
        trailingWs_append_ws _ '\n' (by decide),
        trailingWs_append_nonws _ _ (by simp) (trailingWs_singleton_nonws '.' (by decide))]
    · rw [hs, hassoc2, trailingWs_append_ws _ '\n' (by decide),
        trailingWs_append_ws _ '\n' (by decide), trailingWs_trimEnd]
  · rcases hbr with hs | hs <;> rw [hs] <;>
      exact headOk_append_left _ _ (headOk_trimEnd x hh) hacc
  · rcases hbr with hs | hs <;> rw [hs] <;> rw [List.length_append] <;> simp <;> omega

theorem ingestStep_good (buf : Str) (ev : IngestEvent) (h1 : trailingWs buf ≤ 2)
    (h2 : headOk buf) :
    trailingWs (ingestStep buf ev) ≤ 2 ∧ headOk (ingestStep buf ev) ∧
      buf.length ≤ (ingestStep buf ev).length := by
  cases ev with
  | finalChunk c => exact commitFinalChunk_good buf c h1 h2
  | silenceTimeout => exact silenceCommit_good buf h1 h2

theorem runIngest_good (evs : List IngestEvent) :
    trailingWs (runIngest evs) ≤ 2 ∧ headOk (runIngest evs) := by
  unfold runIngest
  have hgen : ∀ (l : List IngestEvent) (buf : Str), trailingWs buf ≤ 2 → headOk buf →
      trailingWs (l.foldl ingestStep buf) ≤ 2 ∧ headOk (l.foldl ingestStep buf) := by
    intro l
    induction l with
    | nil => intro buf hb1 hb2; exact ⟨hb1, hb2⟩
    | cons ev rest ih =>
      intro buf hb1 hb2
      rw [List.foldl_cons]
      obtain ⟨hg1, hg2, _⟩ := ingestStep_good buf ev hb1 hb2
      exact ih _ hg1 hg2
  exact hgen evs [] (by simp [trailingWs]) trivial

/-! Further supporting facts for the translation, retry and recognition
error claims. -/

theorem jsEndsWith_nl_trimEnd (l : Str) (h : trimEnd l ≠ []) :
    jsEndsWith (trimEnd l) ['\n'] = false := by
  unfold jsEndsWith
  have hrev : (trimEnd l).reverse = l.reverse.dropWhile isWs := by
    unfold trimEnd
    rw [List.reverse_reverse]
  obtain ⟨c, t, hct⟩ : ∃ c t, l.reverse.dropWhile isWs = c :: t := by
    cases hd : l.reverse.dropWhile isWs with
    | nil =>
      exfalso
      apply h
      unfold trimEnd
      rw [hd]
      rfl
    | cons c t => exact ⟨c, t, rfl⟩
  have hcw : isWs c = false := head_dropWhile_false isWs l.reverse c t hct
  rw [hrev, hct]
  have hc : c ≠ '\n' := by
    intro hcn
    rw [hcn] at hcw
    cases hcw
  apply decide_eq_false
  intro heq
  have heq2 : [c] = ['\n'] := heq
  injection heq2 with h2 _
  exact hc h2

theorem lastCharIs_isTerm_of_dot (l : Str) (h : lastCharIs (fun c => decide (c = '.')) l = true) :
    lastCharIs isTerm l = true := by
  unfold lastCharIs at *
  cases hrev : l.reverse with
  | nil =>
    rw [hrev] at h
    cases h
  | cons c t =>
    rw [hrev] at h
    have hdot : c = '.' := of_decide_eq_true h
    rw [hdot]
    show isTerm '.' = true
    decide

theorem retryWithBackoff_ok {T : Type} (attempts : Nat → AttemptResult T) (i retries delay : Nat)
    (v : T) (h : attempts i = .ok v) :
    retryWithBackoff attempts i retries delay = (.ok v, []) := by
  cases retries <;> (unfold retryWithBackoff; rw [h])

theorem retryWithBackoff_err_zero {T : Type} (attempts : Nat → AttemptResult T) (i delay : Nat)
    (e : JsError) (h : attempts i = .err e) :
    retryWithBackoff attempts i 0 delay = (.err e, []) := by
  unfold retryWithBackoff
  rw [h]

theorem retryWithBackoff_err_stop {T : Type} (attempts : Nat → AttemptResult T)
    (i retries delay : Nat) (e : JsError) (h : attempts i = .err e)
    (hq : isQuotaError e = false) :
    retryWithBackoff attempts i retries delay = (.err e, []) := by
  cases retries with
  | zero =>
    unfold retryWithBackoff
    rw [h]
  | succ n =>
    unfold retryWithBackoff
    rw [h]
    simp [hq]

theorem retryWithBackoff_err_retry {T : Type} (attempts : Nat → AttemptResult T)
    (i n delay : Nat) (e : JsError) (h : attempts i = .err e) (hq : isQuotaError e = true) :
    retryWithBackoff attempts i (n + 1) delay =
      ((retryWithBackoff attempts (i + 1) n (delay * 2)).1,
        delay :: (retryWithBackoff attempts (i + 1) n (delay * 2)).2) := by
  conv_lhs => unfold retryWithBackoff
  rw [h]
  simp [hq]

theorem retryWithBackoff_delays_prefix {T : Type} (attempts : Nat → AttemptResult T) :
    ∀ (n i delay : Nat), (retryWithBackoff attempts i n delay).2 <+: delaysList n delay := by
  intro n
  induction n with
  | zero =>
    intro i delay
    cases h : attempts i with
    | ok v =>
      rw [retryWithBackoff_ok attempts i 0 delay v h]
      exact List.nil_prefix
    | err e =>
      rw [retryWithBackoff_err_zero attempts i delay e h]
      exact List.nil_prefix
  | succ n ih =>
    intro i delay
    cases h : attempts i with
    | ok v =>
      rw [retryWithBackoff_ok attempts i (n + 1) delay v h]
      exact List.nil_prefix
    | err e =>
      cases hq : isQuotaError e with
      | false =>
        rw [retryWithBackoff_err_stop attempts i (n + 1) delay e h hq]
        exact List.nil_prefix
      | true =>
        rw [retryWithBackoff_err_retry attempts i n delay e h hq]
        show delay :: _ <+: delay :: _
        exact (List.prefix_cons_inj delay).mpr (ih (i + 1) (delay * 2))

theorem retryWithBackoff_delays_full {T : Type} (attempts : Nat → AttemptResult T)
    (e : JsError) (hall : ∀ i, attempts i = .err e) (hq : isQuotaError e = true) :
    ∀ (n i delay : Nat), (retryWithBackoff attempts i n delay).2 = delaysList n delay := by
  intro n
  induction n with
  | zero =>
    intro i delay
    rw [retryWithBackoff_err_zero attempts i delay e (hall i)]
    rfl
  | succ n ih =>
    intro i delay
    rw [retryWithBackoff_err_retry attempts i n delay e (hall i) hq]
    show delay :: _ = delay :: _
    rw [ih (i + 1) (delay * 2)]

theorem onRecognitionError_status (s : RecognizerState) (code : Str) :
    (onRecognitionError s code).1.status = s.status := by
  unfold onRecognitionError
  split <;> rfl

theorem onRecognitionError_pos (s : RecognizerState) (code : Str)
    (h : s.status = TranscriptionStatus.recording ∧ s.restartCount < 3) :
    onRecognitionError s code =
      ({ s with errorSurfaced := true, restartCount := s.restartCount + 1 }, true) := by
  unfold onRecognitionError
  rw [if_pos h]

theorem onRecognitionError_neg (s : RecognizerState) (code : Str)
    (h : ¬ (s.status = TranscriptionStatus.recording ∧ s.restartCount < 3)) :
    onRecognitionError s code = ({ s with errorSurfaced := true }, false) := by
  unfold onRecognitionError
  rw [if_neg h]

theorem onRecognitionErrors_count (codes : List Str) : ∀ (s : RecognizerState),
    s.status = TranscriptionStatus.recording →
    (onRecognitionErrors s codes).2 = min codes.length (3 - s.restartCount) := by
  induction codes with
  | nil =>
    intro s hrec
    simp [onRecognitionErrors]
  | cons code rest ih =>
    intro s hrec
    unfold onRecognitionErrors
    by_cases hc : s.restartCount < 3
    · rw [onRecognitionError_pos s code ⟨hrec, hc⟩]
      have hnext := ih { s with errorSurfaced := true, restartCount := s.restartCount + 1 } hrec
      simp only at hnext
      simp only [hnext, List.length_cons]
      have hone : (if True then (1 : Nat) else 0) = 1 := if_pos trivial
      rw [hone]
      omega
    · rw [onRecognitionError_neg s code (fun hcon => hc hcon.2)]
      have hnext := ih { s with errorSurfaced := true } hrec
      simp only at hnext
      simp only [hnext, List.length_cons]
      have hzero : (if (false : Bool) = true then (1 : Nat) else 0) = 0 := rfl
      rw [hzero]
      omega

/-! The claim theorems. -/

/-- C1, amended: after every stage operation in a sequence free of batch
translation rounds — ingest commits, silence commits, refinement
splices, incremental translation advances and explicit clears — the
watermarks satisfy 0 ≤ translatedWatermark (processedRef) ≤
refinedWatermark (refinedRef) ≤ length of the source buffer (the lower
bounds are inherent to the Nat representation).  A successful batch
translation advance instead sets the translated watermark to the
captured buffer length, which can exceed the refined watermark, so the
claim fails as stated for batch advances (see the counterexample). -/
theorem c1_watermarks_ordered_no_batch (ops : List StageOp)
    (hops : ∀ op ∈ ops, op.isBatchTranslate = false) :
    (runOps ops).processedRef ≤ (runOps ops).refinedRef ∧
      (runOps ops).refinedRef ≤ (runOps ops).text.length := by
  have h := Linv_runOps ops hops
  exact ⟨h.1, h.2.1⟩

/-- Witness for C1 at a concrete batch-free operation sequence. -/
theorem c1_watermarks_ordered_no_batch_witness :
    (runOps [StageOp.ingest "hello world.".data, StageOp.silence,
        StageOp.translate false (some "xin chao".data)]).processedRef ≤
      (runOps [StageOp.ingest "hello world.".data, StageOp.silence,
        StageOp.translate false (some "xin chao".data)]).refinedRef ∧
      (runOps [StageOp.ingest "hello world.".data, StageOp.silence,
        StageOp.translate false (some "xin chao".data)]).refinedRef ≤
      (runOps [StageOp.ingest "hello world.".data, StageOp.silence,
        StageOp.translate false (some "xin chao".data)]).text.length :=
  c1_watermarks_ordered_no_batch _ (by decide)

/-- C1 counterexample: from an empty session, committing "hi." (buffer
"Hi.", refined watermark 0) and then running a successful batch
translation sets the translated watermark to 3, strictly above the
refined watermark 0 — the claimed chain
translatedWatermark ≤ refinedWatermark fails after a batch advance. -/
theorem c1_batch_counterexample :
    ¬ ((runOps [StageOp.ingest "hi.".data,
          StageOp.translate true (some "xin".data)]).processedRef ≤
        (runOps [StageOp.ingest "hi.".data,
          StageOp.translate true (some "xin".data)]).refinedRef) := by
  decide

/-- C2, amended: the refinement splice is anchored at the refined
watermark captured at call time and preserves exactly the buffer prefix
before that watermark; the entire remainder of the buffer present when
the response arrives — including any source text appended while the
request was in flight — is replaced by the refined output.  In
particular the result does not depend on the appended text at all. -/
theorem c2_splice_replaces_suffix (text0 appended rt : Str) (r0 : Nat)
    (h : r0 ≤ text0.length) :
    applyRefinement (text0 ++ appended) r0 rt = applyRefinement text0 r0 rt ∧
      (applyRefinement (text0 ++ appended) r0 rt).1.take r0 = text0.take r0 := by
  have htake : (text0 ++ appended).take r0 = text0.take r0 :=
    List.take_append_of_le_length h
  have hlen : (text0.take r0).length = r0 := by
    rw [List.length_take]
    omega
  constructor
  · rw [applyRefinement_eq, applyRefinement_eq, htake]
  · rw [applyRefinement_eq]
    rw [htake, List.take_append_of_le_length (by rw [List.length_append, hlen]; omega),
      List.take_append_of_le_length (by simp [hlen]), List.take_take]
    simp

/-- Witness for C2 at concrete buffers. -/
theorem c2_splice_replaces_suffix_witness :
    applyRefinement ("He. ".data ++ "World.".data) 3 "Ok.".data
        = applyRefinement "He. ".data 3 "Ok.".data ∧
      (applyRefinement ("He. ".data ++ "World.".data) 3 "Ok.".data).1.take 3
        = "He. ".data.take 3 :=
  c2_splice_replaces_suffix "He. ".data "World.".data "Ok.".data 3 (by decide)

/-- C2 counterexample: a refinement call fired at watermark 0 over a
40-character buffer; while it is in flight, " new words" is appended by
ingest; the splice applied on success replaces the whole suffix from the
captured watermark with the response "Ok.", so the appended text is
clobbered rather than preserved. -/
theorem c2_clobber_counterexample :
    (trim ((List.replicate 40 'a').drop 0)).length ≥ 40 ∧
      (applyRefinement (List.replicate 40 'a' ++ " new words".data) 0 "Ok.".data).1
        = "Ok.".data ∧
      ¬ (" new words".data <:+:
          (applyRefinement (List.replicate 40 'a' ++ " new words".data) 0 "Ok.".data).1) := by
  decide

/-- C3, amended: from an empty buffer, committing the final chunks
"hello world" then "this is a test." and letting the silence commit fire
leaves the buffer equal to "Hello world This is a test.\n\n": every
sentence unit is capitalized (not only the first one), and the silence
commit appends the blank line. -/
theorem c3_scenario_buffer :
    runIngest [IngestEvent.finalChunk "hello world".data,
        IngestEvent.finalChunk "this is a test.".data,
        IngestEvent.silenceTimeout]
      = "Hello world This is a test.\n\n".data := by
  decide

/-- C3 counterexample: the buffer produced by the scenario differs from
the claimed string "Hello world this is a test.\n\n" — the code
capitalizes each unit, so the second unit starts with an uppercase T. -/
theorem c3_scenario_counterexample :
    runIngest [IngestEvent.finalChunk "hello world".data,
        IngestEvent.finalChunk "this is a test.".data,
        IngestEvent.silenceTimeout]
      ≠ "Hello world this is a test.\n\n".data := by
  decide

/-- C4: for every sequence of ingest-stage events (finalized recognition
chunks and silence commits) with no explicit clear or user edit, each
further event leaves the source buffer length non-decreasing — including
commits that follow a silence commit which left trailing newlines. -/
theorem c4_buffer_length_monotone (evs : List IngestEvent) (ev : IngestEvent) :
    (runIngest evs).length ≤ (runIngest (evs ++ [ev])).length := by
  obtain ⟨h1, h2⟩ := runIngest_good evs
  have hstep : runIngest (evs ++ [ev]) = ingestStep (runIngest evs) ev := by
    unfold runIngest
    rw [List.foldl_append]
    rfl
  rw [hstep]
  exact (ingestStep_good (runIngest evs) ev h1 h2).2.2

/-- C5, amended: on every successful translation commit (incremental or
batch) the pipeline keeps the previous translated content only up to
removal of its trailing whitespace: the new buffer is the end-trimmed
old buffer, then the separator, then the new output, and that trimmed
old content is a prefix of the new buffer.  The untrimmed old content is
not in general a prefix (see the counterexample). -/
theorem c5_translated_append_trimEnd (s : PipelineState) (b : Bool) (rtv : Str)
    (hchunk : trim (translationChunk s b) ≠ []) (hrt : rtv ≠ []) (hval : trim rtv ≠ []) :
    ∃ sep2 : Str,
      (performTranslation s b (some rtv)).1.translatedText =
        trimEnd s.translatedText ++ sep2 ++ trim rtv ∧
      ((performTranslation s b (some rtv)).1.translatedText).take
          (trimEnd s.translatedText).length = trimEnd s.translatedText := by
  rw [performTranslation_some_eq,
    if_neg (by rw [List.length_eq_zero]; exact hchunk), if_neg hrt, if_neg hval]
  cases b with
  | false =>
    refine ⟨if decide ((trimEnd s.translatedText).length > 0) &&
        !(jsEndsWith (trimEnd s.translatedText) ['\n']) then ['\n'] else [], ?_, ?_⟩
    · show appendTranslated s.translatedText (trim rtv) false = _
      rw [appendTranslated_incr_eq]
    · show (appendTranslated s.translatedText (trim rtv) false).take _ = _
      rw [appendTranslated_incr_eq, List.append_assoc, List.take_left]
  | true =>
    refine ⟨if decide ((trimEnd s.translatedText).length > 0) &&
        !(jsEndsWith (trimEnd s.translatedText) ['\n']) then batchMarker else [], ?_, ?_⟩
    · show appendTranslated s.translatedText (trim rtv) true = _
      rw [appendTranslated_batch_eq]
    · show (appendTranslated s.translatedText (trim rtv) true).take _ = _
      rw [appendTranslated_batch_eq, List.append_assoc, List.take_left]

/-- Witness for C5 at a concrete successful incremental commit. -/
theorem c5_translated_append_trimEnd_witness :
    ∃ sep2 : Str,
      (performTranslation ⟨"Hi.".data, 3, 0, "a ".data⟩ false (some "b".data)).1.translatedText =
        trimEnd "a ".data ++ sep2 ++ trim "b".data ∧
      ((performTranslation ⟨"Hi.".data, 3, 0, "a ".data⟩ false
          (some "b".data)).1.translatedText).take (trimEnd "a ".data).length
        = trimEnd "a ".data :=
  c5_translated_append_trimEnd ⟨"Hi.".data, 3, 0, "a ".data⟩ false "b".data
    (by decide) (by decide) (by decide)

/-- C5 counterexample: with translated buffer "a " (trailing space), a
successful incremental commit of response "b" produces "a\nb": the
previously existing content "a " is not left unchanged as a prefix — its
trailing whitespace is removed before the separator is appended. -/
theorem c5_prefix_counterexample :
    (performTranslation ⟨"Hi.".data, 3, 0, "a ".data⟩ false
        (some "b".data)).1.translatedText = "a\nb".data ∧
      ¬ ("a ".data <+:
          (performTranslation ⟨"Hi.".data, 3, 0, "a ".data⟩ false
            (some "b".data)).1.translatedText) := by
  decide

/-- C6: the translated watermark (processedRef) advances to the end of
the consumed slice exactly when the slice is non-degenerate and the
response text is non-empty after trimming; an empty or whitespace-only
response leaves the watermark unchanged and appends nothing; an empty or
whitespace-only slice causes no remote call (the round returns before
calling) and no advance. -/
theorem c6_watermark_advance_iff (s : PipelineState) (b : Bool) (rtv : Str) :
    ((performTranslation s b (some rtv)).2 = false ↔ trim (translationChunk s b) = []) ∧
    (performTranslation s b (some rtv)).1.processedRef =
      (if trim (translationChunk s b) ≠ [] ∧ rtv ≠ [] ∧ trim rtv ≠ [] then translationEnd s b
       else s.processedRef) ∧
    (performTranslation s b (some rtv)).1.translatedText =
      (if trim (translationChunk s b) ≠ [] ∧ rtv ≠ [] ∧ trim rtv ≠ [] then
        appendTranslated s.translatedText (trim rtv) b
       else s.translatedText) := by
  rw [performTranslation_some_eq]
  by_cases h1 : trim (translationChunk s b) = []
  · rw [if_pos (by rw [h1]; rfl)]
    refine ⟨by simp [h1], ?_, ?_⟩
    · rw [if_neg (by simp [h1])]
    · rw [if_neg (by simp [h1])]
  · rw [if_neg (fun hlen => h1 (List.length_eq_zero.mp hlen))]
    by_cases h2 : rtv = []
    · rw [if_pos h2]
      refine ⟨by simp [h1], ?_, ?_⟩
      · rw [if_neg (by simp [h2])]
      · rw [if_neg (by simp [h2])]
    · rw [if_neg h2]
      by_cases h3 : trim rtv = []
      · rw [if_pos h3]
        refine ⟨by simp [h1], ?_, ?_⟩
        · rw [if_neg (by simp [h3])]
        · rw [if_neg (by simp [h3])]
      · rw [if_neg h3]
        refine ⟨by simp [h1], ?_, ?_⟩
        · rw [if_pos ⟨h1, h2, h3⟩]
        · rw [if_pos ⟨h1, h2, h3⟩]

/-- C7, amended: after a successful batch translation with source buffer
"Hello. World." and translated watermark 0, the watermark equals 13 (the
full buffer length) whatever the prior translated buffer and refined
watermark were; the batch separator marker is inserted exactly when the
prior translated buffer is non-empty after end-trimming — with an empty
prior buffer the output is appended bare without the marker (see the
counterexample), so the marker does not appear "regardless of the prior
translated-buffer contents". -/
theorem c7_batch_watermark_marker (prior rtv : Str) (r : Nat) (hrt : rtv ≠ [])
    (hval : trim rtv ≠ []) (hprior : trimEnd prior ≠ []) :
    (performTranslation ⟨"Hello. World.".data, r, 0, prior⟩ true
        (some rtv)).1.processedRef = 13 ∧
      batchMarkerCore <:+:
        (performTranslation ⟨"Hello. World.".data, r, 0, prior⟩ true
          (some rtv)).1.translatedText := by
  have hch : translationChunk ⟨"Hello. World.".data, r, 0, prior⟩ true
      = "Hello. World.".data := rfl
  rw [performTranslation_some_eq, hch, if_neg (by decide), if_neg hrt, if_neg hval]
  constructor
  · rfl
  · show batchMarkerCore <:+: appendTranslated prior (trim rtv) true
    rw [appendTranslated_batch_eq]
    have hcond : (decide ((trimEnd prior).length > 0) &&
        !(jsEndsWith (trimEnd prior) ['\n'])) = true := by
      rw [jsEndsWith_nl_trimEnd prior hprior]
      simp [List.length_pos.mpr hprior]
    rw [if_pos hcond]
    have hmk : "\n\n".data ++ batchMarkerCore ++ "\n".data = batchMarker := by decide
    refine ⟨trimEnd prior ++ "\n\n".data, "\n".data ++ trim rtv, ?_⟩
    rw [← hmk]
    simp [List.append_assoc]

/-- Witness for C7 with a non-empty prior translated buffer. -/
theorem c7_batch_watermark_marker_witness :
    (performTranslation ⟨"Hello. World.".data, 5, 0, "Prev.".data⟩ true
        (some "Xin chao.".data)).1.processedRef = 13 ∧
      batchMarkerCore <:+:
        (performTranslation ⟨"Hello. World.".data, 5, 0, "Prev.".data⟩ true
          (some "Xin chao.".data)).1.translatedText :=
  c7_batch_watermark_marker "Prev.".data "Xin chao.".data 5 (by decide) (by decide) (by decide)

/-- C7 counterexample: the same successful batch translation run with an
empty prior translated buffer advances the watermark to 13 but produces
a translated buffer without the batch separator marker, refuting
"contains the batch separator marker regardless of the prior
translated-buffer contents". -/
theorem c7_marker_counterexample :
    (performTranslation ⟨"Hello. World.".data, 0, 0, []⟩ true
        (some "Xin chao.".data)).1.processedRef = 13 ∧
      (performTranslation ⟨"Hello. World.".data, 0, 0, []⟩ true
        (some "Xin chao.".data)).1.translatedText = "Xin chao.".data ∧
      ¬ (batchMarkerCore <:+:
          (performTranslation ⟨"Hello. World.".data, 0, 0, []⟩ true
            (some "Xin chao.".data)).1.translatedText) := by
  decide

/-- C8: the stream-ingest separator rule at the three specified line
shapes: a last line of exactly 81 characters ending in '.' forces a
newline (soft break past the 80-character threshold), a last line of 50
characters ending in '.' yields a single space, and a last line of 161
characters with no terminal punctuation forces a newline (hard break
past the 160-character limit). -/
theorem c8_separator_rule (b1 b2 b3 : Str)
    (h1a : (lastLineOf b1).length = 81)
    (h1b : lastCharIs (fun c => decide (c = '.')) (lastLineOf b1) = true)
    (h2a : (lastLineOf b2).length = 50)
    (h2b : lastCharIs (fun c => decide (c = '.')) (lastLineOf b2) = true)
    (h3a : (lastLineOf b3).length = 161)
    (h3b : lastCharIs isTerm (lastLineOf b3) = false) :
    separatorFor b1 = ['\n'] ∧ separatorFor b2 = [' '] ∧ separatorFor b3 = ['\n'] := by
  refine ⟨?_, ?_, ?_⟩
  · have hb : b1 ≠ [] := by
      intro hb
      rw [hb] at h1a
      simp [lastLineOf] at h1a
    have ht := lastCharIs_isTerm_of_dot _ h1b
    simp [separatorFor, hb, ht, h1a, SOFT_BREAK_THRESHOLD, MAX_READABLE_LINE_LENGTH]
  · have hb : b2 ≠ [] := by
      intro hb
      rw [hb] at h2a
      simp [lastLineOf] at h2a
    have ht := lastCharIs_isTerm_of_dot _ h2b
    simp [separatorFor, hb, ht, h2a, SOFT_BREAK_THRESHOLD, MAX_READABLE_LINE_LENGTH]
  · have hb : b3 ≠ [] := by
      intro hb
      rw [hb] at h3a
      simp [lastLineOf] at h3a
    simp [separatorFor, hb, h3b, h3a, SOFT_BREAK_THRESHOLD, MAX_READABLE_LINE_LENGTH]

/-- Witness for C8 at concrete buffers of the three shapes. -/
theorem c8_separator_rule_witness :
    separatorFor (List.replicate 80 'a' ++ ['.']) = ['\n'] ∧
      separatorFor (List.replicate 49 'a' ++ ['.']) = [' '] ∧
      separatorFor (List.replicate 161 'a') = ['\n'] :=
  c8_separator_rule (List.replicate 80 'a' ++ ['.']) (List.replicate 49 'a' ++ ['.'])
    (List.replicate 161 'a') (by decide) (by decide) (by decide) (by decide)
    (by decide) (by decide)

/-- C9: the refinement retry wrapper, called with its defaults of 3
retries and base delay 1000 ms, sleeps the doubling delays 1000, 2000,
4000 ms (the slept delays always form a prefix of that list, realized in
full when every attempt fails with a rate-limit-class error — status 429
or message containing "429"); a first attempt failing with any other
error propagates immediately with no retry and no delay. -/
theorem c9_retry_backoff {T : Type} (attempts : Nat → AttemptResult T) :
    (retryWithBackoff attempts 0 3 1000).2 <+: [1000, 2000, 4000] ∧
    (∀ e : JsError, attempts 0 = .err e → isQuotaError e = false →
      retryWithBackoff attempts 0 3 1000 = (.err e, [])) ∧
    (∀ e : JsError, isQuotaError e = true → (∀ i, attempts i = .err e) →
      (retryWithBackoff attempts 0 3 1000).2 = [1000, 2000, 4000]) := by
  refine ⟨?_, ?_, ?_⟩
  · have h := retryWithBackoff_delays_prefix attempts 3 0 1000
    have hd : delaysList 3 1000 = [1000, 2000, 4000] := rfl
    rwa [hd] at h
  · intro e h hq
    exact retryWithBackoff_err_stop attempts 0 3 1000 e h hq
  · intro e hq hall
    have h := retryWithBackoff_delays_full attempts e hall hq 3 0 1000
    have hd : delaysList 3 1000 = [1000, 2000, 4000] := rfl
    rwa [hd] at h

/-- Witness for C9: a non-quota error (status 500) propagates at once
with no delays; an always-429 attempt stream realizes the full delay
list 1000, 2000, 4000. -/
theorem c9_retry_backoff_witness :
    retryWithBackoff (fun _ => (AttemptResult.err ⟨some 500, none⟩ : AttemptResult Nat))
        0 3 1000 = (.err ⟨some 500, none⟩, []) ∧
      (retryWithBackoff (fun _ => (AttemptResult.err ⟨some 429, none⟩ : AttemptResult Nat))
        0 3 1000).2 = [1000, 2000, 4000] := by
  constructor
  · exact (c9_retry_backoff _).2.1 ⟨some 500, none⟩ rfl (by decide)
  · exact (c9_retry_backoff _).2.2 ⟨some 429, none⟩ (by decide) (fun i => rfl)

/-- C10, amended: while recording, every recognition error — regardless
of its category, including the user-denied permission code
'not-allowed' — schedules an automatic restart exactly when fewer than 3
consecutive restarts have occurred; the error message is surfaced in
every case; and a run of n consecutive errors from a fresh counter
schedules min n 3 restarts, after which errors are surfaced without
further restarts. -/
theorem c10_restart_policy (s : RecognizerState) (code : Str) (codes : List Str)
    (hrec : s.status = TranscriptionStatus.recording) :
    ((onRecognitionError s code).2 = true ↔ s.restartCount < 3) ∧
      (onRecognitionError s code).1.errorSurfaced = true ∧
      (s.restartCount = 0 → (onRecognitionErrors s codes).2 = min codes.length 3) := by
  refine ⟨?_, ?_, ?_⟩
  · by_cases hc : s.restartCount < 3
    · rw [onRecognitionError_pos s code ⟨hrec, hc⟩]
      simp [hc]
    · rw [onRecognitionError_neg s code (fun hcon => hc hcon.2)]
      simp [hc]
  · unfold onRecognitionError
    split <;> rfl
  · intro hcnt
    rw [onRecognitionErrors_count codes s hrec, hcnt]

/-- Witness for C10: from a fresh recording state, a run of five
consecutive 'network' errors schedules exactly three restarts, and a
single error schedules a restart. -/
theorem c10_restart_policy_witness :
    ((onRecognitionError ⟨TranscriptionStatus.recording, 0, false⟩ "network".data).2 = true ↔
        (0 : Nat) < 3) ∧
      (onRecognitionError ⟨TranscriptionStatus.recording, 0, false⟩
          "network".data).1.errorSurfaced = true ∧
      ((0 : Nat) = 0 →
        (onRecognitionErrors ⟨TranscriptionStatus.recording, 0, false⟩
          ["network".data, "network".data, "network".data, "network".data,
            "network".data]).2 = min 5 3) :=
  c10_restart_policy ⟨TranscriptionStatus.recording, 0, false⟩ "network".data
    ["network".data, "network".data, "network".data, "network".data, "network".data] rfl

/-- C10 counterexample: while recording with a fresh restart counter, a
'not-allowed' (user-denied permission) recognition error also schedules
a restart — the restart condition of recognition.onerror does not
inspect the error category, refuting "only for transient error
categories (not user-denied permission)". -/
theorem c10_user_denied_counterexample :
    onRecognitionError ⟨TranscriptionStatus.recording, 0, false⟩ userDeniedCode
      = (⟨TranscriptionStatus.recording, 1, true⟩, true) := by
  decide

end DichAI
